import Mathlib

/-!
# CityGuard: verification of the encrypted-report system

Shallow embedding of the `city-guard-link` repository:

* `src/frontend/utils/chacha20.ts` — the stream cipher (`quarterRound`,
  `chacha20Block`, `chacha20Encrypt`); bytes are `Nat` values `< 256`,
  32-bit words are `Nat` values reduced `% 2^32` exactly where the
  JavaScript `Uint32Array` / `>>> 0` coercions wrap.
* `src/contracts/CityGuard.sol` — the report store and ledger
  (`submitReport`, `updateReportStatus`, the getters); EVM reverts are
  modelled as `Except`/`Option` failures that leave the pre-state
  untouched.
* `src/frontend/components/ReportSubmit.tsx` / `ReportList.tsx` — the
  byte/hex helpers (`bytesToHex`, `hexToBytes`) and the key derivation
  `deriveKeyFromPasswordAddress`.
-/

/-! ## Keystream cipher engine (src/frontend/utils/chacha20.ts) -/

/-- `rotl32(v, c) = ((v << c) | (v >>> (32 - c))) >>> 0` from chacha20.ts:
32-bit left rotation; the trailing `>>> 0` is the final `% 2^32`. -/
def rotl32 (v c : Nat) : Nat :=
  ((v <<< c) ||| (v >>> (32 - c))) % 2 ^ 32

/-- One ChaCha20 quarter round, mutating state words `a b c d` in place
exactly in the order of `quarterRound` in chacha20.ts.  Each `+=` on the
`Uint32Array` wraps `% 2^32`. -/
def quarterRound (s : List Nat) (a b c d : Nat) : List Nat :=
  let s := s.set a ((s.getD a 0 + s.getD b 0) % 2 ^ 32)
  let s := s.set d (rotl32 (Nat.xor (s.getD d 0) (s.getD a 0)) 16)
  let s := s.set c ((s.getD c 0 + s.getD d 0) % 2 ^ 32)
  let s := s.set b (rotl32 (Nat.xor (s.getD b 0) (s.getD c 0)) 12)
  let s := s.set a ((s.getD a 0 + s.getD b 0) % 2 ^ 32)
  let s := s.set d (rotl32 (Nat.xor (s.getD d 0) (s.getD a 0)) 8)
  let s := s.set c ((s.getD c 0 + s.getD d 0) % 2 ^ 32)
  s.set b (rotl32 (Nat.xor (s.getD b 0) (s.getD c 0)) 7)

/-- Little-endian 32-bit word read `bytes[4i] | bytes[4i+1] << 8 | ... | bytes[4i+3] << 24`
as done for the constants, key and nonce in `chacha20Block`.  A JavaScript
out-of-range `Uint8Array` read yields `undefined`, which the bitwise `|`
coerces to `0`: hence `List.getD _ _ 0`. -/
def le32word (bytes : List Nat) (i : Nat) : Nat :=
  (bytes.getD (4 * i) 0 |||
    (bytes.getD (4 * i + 1) 0 <<< 8) |||
    (bytes.getD (4 * i + 2) 0 <<< 16) |||
    (bytes.getD (4 * i + 3) 0 <<< 24)) % 2 ^ 32

/-- The 16 constant bytes `"expand 32-byte k"` of `chacha20Block`. -/
def chachaConstants : List Nat :=
  [0x65, 0x78, 0x70, 0x61, 0x6e, 0x64, 0x20, 0x33,
   0x32, 0x2d, 0x62, 0x79, 0x74, 0x65, 0x20, 0x6b]

/-- One double round of `chacha20Block`: the four column quarter rounds
followed by the four diagonal quarter rounds, with the exact index
groupings of the source. -/
def doubleRound (w : List Nat) : List Nat :=
  let w := quarterRound w 0 4 8 12
  let w := quarterRound w 1 5 9 13
  let w := quarterRound w 2 6 10 14
  let w := quarterRound w 3 7 11 15
  let w := quarterRound w 0 5 10 15
  let w := quarterRound w 1 6 11 12
  let w := quarterRound w 2 7 8 13
  quarterRound w 3 4 9 14

/-- Little-endian serialization of one 32-bit word, as `DataView.setUint32
(_, _, true)` lays it out in `chacha20Block`. -/
def serializeLE32 (w : Nat) : List Nat :=
  [w % 256, (w >>> 8) % 256, (w >>> 16) % 256, (w >>> 24) % 256]

/-- `chacha20Block(key, counter, nonce)` from chacha20.ts: build the
16-word initial state (4 constant words, 8 key words, the counter, 3
nonce words, all little-endian), run 10 double rounds, add the initial
state word-wise `% 2^32`, and serialize all 16 words little-endian into
64 bytes.  `counter >>> 0` is `counter % 2^32`. -/
def chacha20Block (key : List Nat) (counter : Nat) (nonce : List Nat) : List Nat :=
  let state : List Nat :=
    (List.range 4).map (le32word chachaConstants) ++
    (List.range 8).map (le32word key) ++
    [counter % 2 ^ 32] ++
    (List.range 3).map (le32word nonce)
  let working := (List.range 10).foldl (fun w _ => doubleRound w) state
  let final := List.zipWith (fun a b => (a + b) % 2 ^ 32) working state
  (final.map serializeLE32).flatten

/-- The `while (pos < plaintext.length)` block loop of `chacha20Encrypt`,
starting at block counter `counter`: XOR the next (up to) 64 input bytes
against `chacha20Block key counter nonce` (`zipWith` truncates the
64-byte block to the remaining byte count), then continue with
`counter + 1` on the rest.  `fuel` makes the recursion structural; every
step on nonempty data shortens it, so `fuel = data.length` never runs
out (the `0, _` branch is unreachable under `data.length ≤ fuel`). -/
def chacha20EncryptGo (key nonce : List Nat) : Nat → Nat → List Nat → List Nat
  | _, _, [] => []
  | 0, _, _ => []
  | fuel + 1, counter, data =>
      List.zipWith Nat.xor (data.take 64) (chacha20Block key counter nonce) ++
        chacha20EncryptGo key nonce fuel (counter + 1) (data.drop 64)

/-- `chacha20Encrypt(key, nonce, plaintext)` from chacha20.ts: the block
loop started at counter 0.  (`chacha20Decrypt` is literally the same
function in the source.) -/
def chacha20Encrypt (key nonce plaintext : List Nat) : List Nat :=
  chacha20EncryptGo key nonce plaintext.length 0 plaintext

/-! ### Cipher lemmas -/

theorem quarterRound_length (s : List Nat) (a b c d : Nat) :
    (quarterRound s a b c d).length = s.length := by
  simp [quarterRound]

theorem doubleRound_length (w : List Nat) : (doubleRound w).length = w.length := by
  simp [doubleRound, quarterRound_length]

theorem chacha20Block_length (key : List Nat) (counter : Nat) (nonce : List Nat) :
    (chacha20Block key counter nonce).length = 64 := by
  unfold chacha20Block
  have hstate : ∀ st : List Nat,
      ((List.range 10).foldl (fun w _ => doubleRound w) st).length = st.length := by
    intro st
    induction (List.range 10) generalizing st with
    | nil => rfl
    | cons x xs ih => simpa [doubleRound_length] using ih (doubleRound st)
  have hflat : ∀ l : List Nat, ((l.map serializeLE32).flatten).length = 4 * l.length := by
    intro l
    induction l with
    | nil => rfl
    | cons x xs ih => simp [serializeLE32, ih]; omega
  simp [hflat, hstate]

theorem chacha20EncryptGo_length (key nonce : List Nat) :
    ∀ fuel counter data, data.length ≤ fuel →
      (chacha20EncryptGo key nonce fuel counter data).length = data.length := by
  intro fuel
  induction fuel with
  | zero =>
    intro counter data h
    have : data = [] := List.length_eq_zero.mp (Nat.le_zero.mp h)
    subst this; rfl
  | succ n ih =>
    intro counter data h
    match data with
    | [] => rfl
    | x :: xs =>
      rw [chacha20EncryptGo]
      case x_3 => simp
      have hd : ((x :: xs).drop 64).length ≤ n := by
        simp only [List.length_drop]
        simp only [List.length_cons] at h ⊢
        omega
      simp only [List.length_append, List.length_zipWith, List.length_take,
        chacha20Block_length, ih _ _ hd, List.length_drop, List.length_cons]
      omega

theorem zipWith_xor_cancel (a b : List Nat) (h : a.length ≤ b.length) :
    List.zipWith Nat.xor (List.zipWith Nat.xor a b) b = a := by
  induction a generalizing b with
  | nil => simp
  | cons x xs ih =>
    match b with
    | [] => simp at h
    | y :: ys =>
      have hx : Nat.xor (Nat.xor x y) y = x := Nat.xor_cancel_right y x
      simp only [List.zipWith_cons_cons]
      rw [hx]
      exact congrArg (x :: .) (ih ys (by simpa using Nat.le_of_succ_le_succ h))

theorem chacha20EncryptGo_cons (key nonce : List Nat) (n counter x : Nat) (xs : List Nat) :
    chacha20EncryptGo key nonce (n + 1) counter (x :: xs) =
      List.zipWith Nat.xor ((x :: xs).take 64) (chacha20Block key counter nonce) ++
        chacha20EncryptGo key nonce n (counter + 1) ((x :: xs).drop 64) := by
  rw [chacha20EncryptGo]
  simp

theorem chacha20EncryptGo_nil (key nonce : List Nat) (fuel counter : Nat) :
    chacha20EncryptGo key nonce fuel counter [] = [] := by
  cases fuel <;> rfl

theorem chacha20EncryptGo_invol (key nonce : List Nat) :
    ∀ fuel counter data, data.length ≤ fuel →
      chacha20EncryptGo key nonce fuel counter
        (chacha20EncryptGo key nonce fuel counter data) = data := by
  intro fuel
  induction fuel with
  | zero =>
    intro c d h
    have : d = [] := List.length_eq_zero.mp (Nat.le_zero.mp h)
    subst this
    rw [chacha20EncryptGo_nil, chacha20EncryptGo_nil]
  | succ n ih =>
    intro c d h
    match d with
    | [] => rw [chacha20EncryptGo_nil, chacha20EncryptGo_nil]
    | x :: xs =>
      have hB : (chacha20Block key c nonce).length = 64 := chacha20Block_length key c nonce
      rw [chacha20EncryptGo_cons]
      set z := List.zipWith Nat.xor ((x :: xs).take 64) (chacha20Block key c nonce) with hz
      set r := chacha20EncryptGo key nonce n (c + 1) ((x :: xs).drop 64) with hr
      have hzlen : z.length = min (x :: xs).length 64 := by
        rw [hz, List.length_zipWith, List.length_take, hB]
        omega
      have hzle : z.length ≤ 64 := by omega
      have hrnil : (x :: xs).length ≤ 64 → r = [] := by
        intro hle
        rw [hr, List.drop_eq_nil_of_le hle, chacha20EncryptGo_nil]
      have hzne : z ≠ [] := by
        intro hznil
        have : z.length = 0 := by rw [hznil]; rfl
        simp [hzlen] at this
      have htake : (z ++ r).take 64 = z := by
        rw [List.take_append_eq_append_take, List.take_of_length_le hzle]
        rcases Nat.lt_or_ge (x :: xs).length 64 with hlt | hge
        · rw [hrnil (Nat.le_of_lt hlt)]
          simp
        · have : 64 - z.length = 0 := by omega
          rw [this]
          simp
      have hdrop : (z ++ r).drop 64 = r := by
        rw [List.drop_append_eq_append_drop, List.drop_eq_nil_of_le hzle]
        rcases Nat.lt_or_ge (x :: xs).length 64 with hlt | hge
        · rw [hrnil (Nat.le_of_lt hlt)]
          simp
        · have : 64 - z.length = 0 := by omega
          rw [this]
          simp
      obtain ⟨z0, ztl, hzc⟩ := List.exists_cons_of_ne_nil hzne
      rw [hzc, List.cons_append, chacha20EncryptGo_cons, ← List.cons_append, ← hzc,
        htake, hdrop, hz]
      rw [zipWith_xor_cancel _ _ (by rw [List.length_take, hB]; omega)]
      have hd : ((x :: xs).drop 64).length ≤ n := by
        rw [List.length_drop]
        simp only [List.length_cons] at h ⊢
        omega
      rw [hr, ih (c + 1) ((x :: xs).drop 64) hd]
      exact List.take_append_drop 64 (x :: xs)

set_option maxRecDepth 20000

theorem chacha20Encrypt_length (key nonce data : List Nat) :
    (chacha20Encrypt key nonce data).length = data.length :=
  chacha20EncryptGo_length key nonce data.length 0 data (le_refl _)

/-- C1: for every 32-byte key, 12-byte nonce and byte sequence `data`,
`chacha20Encrypt` is an involution — applying it twice returns the
original input — and each application preserves the input length exactly
(no padding). -/
theorem chacha20Encrypt_roundtrip (key nonce data : List Nat)
    (hkey : key.length = 32) (hnonce : nonce.length = 12) :
    chacha20Encrypt key nonce (chacha20Encrypt key nonce data) = data ∧
    (chacha20Encrypt key nonce data).length = data.length ∧
    (chacha20Encrypt key nonce (chacha20Encrypt key nonce data)).length =
      (chacha20Encrypt key nonce data).length := by
  refine ⟨?_, chacha20Encrypt_length key nonce data, chacha20Encrypt_length key nonce _⟩
  show chacha20EncryptGo key nonce (chacha20Encrypt key nonce data).length 0
      (chacha20Encrypt key nonce data) = data
  rw [chacha20Encrypt_length key nonce data]
  exact chacha20EncryptGo_invol key nonce data.length 0 data (le_refl _)

/-- C1 witness: round trip at the all-zero 32-byte key, all-zero 12-byte
nonce, and a 65-byte input (one full block plus one byte). -/
theorem chacha20Encrypt_roundtrip_witness :
    (List.replicate 32 0).length = 32 ∧ (List.replicate 12 0).length = 12 ∧
    chacha20Encrypt (List.replicate 32 0) (List.replicate 12 0)
        (chacha20Encrypt (List.replicate 32 0) (List.replicate 12 0)
          (List.replicate 65 7)) = List.replicate 65 7 :=
  ⟨by decide, by decide,
    (chacha20Encrypt_roundtrip (List.replicate 32 0) (List.replicate 12 0)
      (List.replicate 65 7) (by decide) (by decide)).1⟩

/-- C2: `chacha20Block` (the keystream block generator) always produces a
64-byte block, and on the all-zero 32-byte key, all-zero 12-byte nonce
and counter 0 it produces exactly the standard ChaCha20 reference
keystream block (RFC 8439 construction: 4 constants, 8 little-endian key
words, counter, 3 little-endian nonce words, 10 double rounds of the
16/12/8/7 quarter round over column and diagonal groupings, feed-forward
add, little-endian serialization). -/
theorem chacha20Block_known_vector :
    (∀ key counter nonce, (chacha20Block key counter nonce).length = 64) ∧
    chacha20Block (List.replicate 32 0) 0 (List.replicate 12 0) =
      [0x76, 0xb8, 0xe0, 0xad, 0xa0, 0xf1, 0x3d, 0x90,
       0x40, 0x5d, 0x6a, 0xe5, 0x53, 0x86, 0xbd, 0x28,
       0xbd, 0xd2, 0x19, 0xb8, 0xa0, 0x8d, 0xed, 0x1a,
       0xa8, 0x36, 0xef, 0xcc, 0x8b, 0x77, 0x0d, 0xc7,
       0xda, 0x41, 0x59, 0x7c, 0x51, 0x57, 0x48, 0x8d,
       0x77, 0x24, 0xe0, 0x3f, 0xb8, 0xd8, 0x4a, 0x37,
       0x6a, 0x43, 0xb8, 0xf4, 0x15, 0x18, 0xa1, 0x1c,
       0xc3, 0x87, 0xb6, 0x69, 0xb2, 0xee, 0x65, 0x86] :=
  ⟨chacha20Block_length, by decide⟩

theorem getD_zero_pad (l : List Nat) (m : Nat) (_h : l.length ≤ m) (j : Nat) :
    (l ++ List.replicate (m - l.length) 0).getD j 0 = l.getD j 0 := by
  rcases Nat.lt_or_ge j l.length with hj | hj
  · exact List.getD_append _ _ _ _ hj
  · rw [List.getD_append_right _ _ _ _ hj]
    have hrep : ∀ (k i : Nat), (List.replicate k (0 : Nat)).getD i 0 = 0 := by
      intro k
      induction k with
      | zero => intro i; rfl
      | succ n ih =>
        intro i
        cases i with
        | zero => rfl
        | succ j => exact ih j
    have hout : l.getD j 0 = 0 := by
      rw [List.getD_eq_getElem?_getD, List.getElem?_eq_none (by omega)]
      rfl
    rw [hrep, hout]

theorem le32word_zero_pad (l : List Nat) (m : Nat) (h : l.length ≤ m) (i : Nat) :
    le32word (l ++ List.replicate (m - l.length) 0) i = le32word l i := by
  unfold le32word
  rw [getD_zero_pad l m h, getD_zero_pad l m h, getD_zero_pad l m h, getD_zero_pad l m h]

theorem chacha20Block_zero_pad (key nonce : List Nat) (counter : Nat)
    (hkey : key.length ≤ 32) (hnonce : nonce.length ≤ 12) :
    chacha20Block (key ++ List.replicate (32 - key.length) 0) counter
        (nonce ++ List.replicate (12 - nonce.length) 0) =
      chacha20Block key counter nonce := by
  unfold chacha20Block
  have hk : ((List.range 8).map (le32word (key ++ List.replicate (32 - key.length) 0))) =
      (List.range 8).map (le32word key) :=
    List.map_congr_left (fun i _ => le32word_zero_pad key 32 hkey i)
  have hn : ((List.range 3).map (le32word (nonce ++ List.replicate (12 - nonce.length) 0))) =
      (List.range 3).map (le32word nonce) :=
    List.map_congr_left (fun i _ => le32word_zero_pad nonce 12 hnonce i)
  rw [hk, hn]

theorem chacha20EncryptGo_congr_block (key1 nonce1 key2 nonce2 : List Nat)
    (hb : ∀ c, chacha20Block key1 c nonce1 = chacha20Block key2 c nonce2) :
    ∀ fuel counter data,
      chacha20EncryptGo key1 nonce1 fuel counter data =
        chacha20EncryptGo key2 nonce2 fuel counter data := by
  intro fuel
  induction fuel with
  | zero =>
    intro counter data
    cases data <;> rfl
  | succ n ih =>
    intro counter data
    cases data with
    | nil => rfl
    | cons x xs =>
      rw [chacha20EncryptGo_cons, chacha20EncryptGo_cons, hb, ih]

/-- C8 counterexample: invoked with a 0-byte key and a 0-byte nonce (not
32 and 12 bytes), `chacha20Encrypt` does not fail at all — it returns a
ciphertext (the input XORed against the keystream obtained by reading the
missing key/nonce bytes as zero). -/
theorem chacha20Encrypt_accepts_bad_lengths :
    ([] : List Nat).length ≠ 32 ∧ ([] : List Nat).length ≠ 12 ∧
    chacha20Encrypt [] [] [1, 2, 3] = [0x77, 0xba, 0xe3] :=
  ⟨by decide, by decide, by decide⟩

/-- C8 amended: `chacha20Encrypt` performs no validation of key or nonce
lengths.  For every key and nonce, of any length, it produces output of
exactly the input's length, and a too-short key or nonce behaves as if
zero-padded to 32 resp. 12 bytes (JavaScript reads the missing
`Uint8Array` entries as `undefined`, coerced to 0 by the bitwise ops). -/
theorem chacha20Encrypt_no_key_validation (key nonce data : List Nat)
    (hkey : key.length ≤ 32) (hnonce : nonce.length ≤ 12) :
    (∀ k n d : List Nat, (chacha20Encrypt k n d).length = d.length) ∧
    chacha20Encrypt (key ++ List.replicate (32 - key.length) 0)
        (nonce ++ List.replicate (12 - nonce.length) 0) data =
      chacha20Encrypt key nonce data := by
  refine ⟨chacha20Encrypt_length, ?_⟩
  unfold chacha20Encrypt
  exact chacha20EncryptGo_congr_block _ _ _ _
    (fun c => chacha20Block_zero_pad key nonce c hkey hnonce) data.length 0 data

/-- C8 amended witness: the empty key and nonce satisfy the length bounds
and encrypting with them equals encrypting with the all-zero 32-byte key
and 12-byte nonce. -/
theorem chacha20Encrypt_no_key_validation_witness :
    ([] : List Nat).length ≤ 32 ∧ ([] : List Nat).length ≤ 12 ∧
    chacha20Encrypt (([] : List Nat) ++ List.replicate (32 - ([] : List Nat).length) 0)
        (([] : List Nat) ++ List.replicate (12 - ([] : List Nat).length) 0) [1, 2, 3] =
      chacha20Encrypt [] [] [1, 2, 3] :=
  ⟨by decide, by decide,
    (chacha20Encrypt_no_key_validation [] [] [1, 2, 3] (by decide) (by decide)).2⟩

/-! ## Report store and ledger (src/contracts/CityGuard.sol) -/

/-- `enum ReportStatus { Pending, Reviewed, Resolved }` from CityGuard.sol. -/
inductive ReportStatus where
  | Pending
  | Reviewed
  | Resolved
deriving DecidableEq

/-- `struct Report` from CityGuard.sol.  Addresses are modelled as `Nat`
principal identities; the FHE `eaddress` handle is opaque, modelled as a
`Nat`; `createdAt` is the `uint64` block timestamp. -/
structure Report where
  reporter : Nat
  title : String
  encryptedData : List Nat
  encryptedKey : Nat
  createdAt : Nat
  status : ReportStatus
deriving DecidableEq

/-- Default used only as the `List.getD` fallback (never observed for
indices in range). -/
def defaultReport : Report :=
  { reporter := 0, title := "", encryptedData := [], encryptedKey := 0,
    createdAt := 0, status := ReportStatus.Pending }

instance : Inhabited Report := ⟨defaultReport⟩

/-- Contract storage of CityGuard: the `Report[] private _reports` array
and the `mapping(address => uint256[]) private _reportsByReporter`
secondary index (a total map, empty list for unused keys, exactly as a
Solidity mapping reads). -/
structure CityGuardState where
  reports : List Report
  reportsByReporter : Nat → List Nat

/-- Storage right after deployment: empty array, empty mapping. -/
def deployedState : CityGuardState :=
  { reports := [], reportsByReporter := fun _ => [] }

/-- `submitReport(title, encryptedData, encKey, inputProof)` from
CityGuard.sol, called by `caller` (`msg.sender`) at time `timestamp`
(`block.timestamp`).  `FHE.fromExternal(encKey, inputProof)` is an
external-service call: on proof failure the whole transaction reverts and
no state change happens at all, so the model takes the successfully
ingested handle `encKeyHandle` as input and describes the success path.
The body builds the `Report` with `status = Pending`, pushes it onto
`_reports`, computes `id = _reports.length - 1`, and pushes `id` onto
`_reportsByReporter[msg.sender]` (the `FHE.allowThis`/`FHE.allow` ACL
grants touch only the external FHE coprocessor, not contract storage).
Returns the new state together with the id assigned to the report. -/
def submitReport (s : CityGuardState) (caller : Nat) (title : String)
    (encryptedData : List Nat) (encKeyHandle : Nat) (timestamp : Nat) :
    CityGuardState × Nat :=
  let r : Report :=
    { reporter := caller, title := title, encryptedData := encryptedData,
      encryptedKey := encKeyHandle, createdAt := timestamp,
      status := ReportStatus.Pending }
  let reports := s.reports ++ [r]
  let id := reports.length - 1
  ({ reports := reports,
     reportsByReporter := fun p =>
       if p = caller then s.reportsByReporter p ++ [id]
       else s.reportsByReporter p }, id)

/-- `getReportCount()` from CityGuard.sol: `_reports.length`. -/
def getReportCount (s : CityGuardState) : Nat :=
  s.reports.length

/-- `getReportCountByReporter(reporter)`: `_reportsByReporter[reporter].length`. -/
def getReportCountByReporter (s : CityGuardState) (reporter : Nat) : Nat :=
  (s.reportsByReporter reporter).length

/-- `getReportIdsByReporter(reporter)`: `_reportsByReporter[reporter]`. -/
def getReportIdsByReporter (s : CityGuardState) (reporter : Nat) : List Nat :=
  s.reportsByReporter reporter

/-- `getReportMeta(id)`: reads `_reports[id]` and returns
`(reporter, title, createdAt, status)`.  A Solidity array access with
`id >= _reports.length` reverts (panic 0x32), modelled as `none`. -/
def getReportMeta (s : CityGuardState) (id : Nat) :
    Option (Nat × String × Nat × ReportStatus) :=
  (s.reports.get? id).map fun r => (r.reporter, r.title, r.createdAt, r.status)

/-- `getReportData(id)`: `_reports[id].encryptedData`, reverting (`none`)
out of bounds. -/
def getReportData (s : CityGuardState) (id : Nat) : Option (List Nat) :=
  (s.reports.get? id).map fun r => r.encryptedData

/-- `getEncryptedKey(id)`: `_reports[id].encryptedKey`, reverting
(`none`) out of bounds. -/
def getEncryptedKey (s : CityGuardState) (id : Nat) : Option Nat :=
  (s.reports.get? id).map fun r => r.encryptedKey

/-- `updateReportStatus(id, newStatus)` from CityGuard.sol, called by
`caller` (`msg.sender`): `require(id < _reports.length, "Report does not
exist")`, then `require(_reports[id].reporter == msg.sender, "Only
reporter can update status")`, then `_reports[id].status = newStatus`.
A failed `require` reverts with the given message (`Except.error`),
leaving storage untouched. -/
def updateReportStatus (s : CityGuardState) (id : Nat)
    (newStatus : ReportStatus) (caller : Nat) : Except String CityGuardState :=
  if id < s.reports.length then
    let r := s.reports.getD id defaultReport
    if r.reporter = caller then
      Except.ok { s with reports := s.reports.set id { r with status := newStatus } }
    else
      Except.error "Only reporter can update status"
  else
    Except.error "Report does not exist"

/-! ### Transaction traces -/

/-- One external transaction against the contract. -/
inductive Tx where
  | submit (caller : Nat) (title : String) (encryptedData : List Nat)
      (encKeyHandle : Nat) (timestamp : Nat)
  | update (caller : Nat) (id : Nat) (newStatus : ReportStatus)
deriving DecidableEq

/-- EVM semantics of one transaction: a successful call commits the new
storage, a reverted call leaves storage exactly as before. -/
def execTx (s : CityGuardState) : Tx → CityGuardState
  | Tx.submit caller title encryptedData encKeyHandle timestamp =>
      (submitReport s caller title encryptedData encKeyHandle timestamp).1
  | Tx.update caller id newStatus =>
      match updateReportStatus s id newStatus caller with
      | Except.ok s2 => s2
      | Except.error _ => s

/-- Run a list of transactions from freshly deployed storage. -/
def execTrace (acts : List Tx) : CityGuardState :=
  acts.foldl execTx deployedState

/-- Number of (always-successful) submissions in a trace. -/
def numSubmits (acts : List Tx) : Nat :=
  (acts.filter fun a => match a with
    | Tx.submit _ _ _ _ _ => true
    | Tx.update _ _ _ => false).length

/-- The Reporter-Index specification, written from the spec's words
(I2/"Ownership isolation"): the ids belonging to `p` are exactly the
positions `i` of the report array whose report has `reporter = p`, in
increasing (= submission) order. -/
def specReporterIds (s : CityGuardState) (p : Nat) : List Nat :=
  (List.range s.reports.length).filter
    fun i => (s.reports.getD i defaultReport).reporter = p

/-! ### Ledger lemmas -/

/-- The `Report memory r` built by `submitReport` before pushing. -/
def mkReport (caller : Nat) (title : String) (d : List Nat) (k ts : Nat) : Report :=
  { reporter := caller, title := title, encryptedData := d, encryptedKey := k,
    createdAt := ts, status := ReportStatus.Pending }

/-- The post-state of a successful `updateReportStatus s id newStatus _`:
only the `status` field of `_reports[id]` is overwritten. -/
def setStatus (s : CityGuardState) (id : Nat) (newStatus : ReportStatus) : CityGuardState :=
  { s with reports :=
      s.reports.set id { s.reports.getD id defaultReport with status := newStatus } }

theorem submitReport_reports (s : CityGuardState) (caller : Nat) (title : String)
    (d : List Nat) (k ts : Nat) :
    ((submitReport s caller title d k ts).1).reports =
      s.reports ++ [mkReport caller title d k ts] := rfl

theorem submitReport_index (s : CityGuardState) (caller : Nat) (title : String)
    (d : List Nat) (k ts p : Nat) :
    ((submitReport s caller title d k ts).1).reportsByReporter p =
      if p = caller then s.reportsByReporter p ++ [s.reports.length]
      else s.reportsByReporter p := by
  show (if p = caller then
      s.reportsByReporter p ++ [(s.reports ++ [mkReport caller title d k ts]).length - 1]
    else s.reportsByReporter p) = _
  rw [List.length_append]
  rfl

theorem getD_set_report (l : List Report) (i j : Nat) (a : Report) :
    (l.set i a).getD j defaultReport =
      if i = j ∧ i < l.length then a else l.getD j defaultReport := by
  rw [List.getD_eq_getElem?_getD, List.getElem?_set, List.getD_eq_getElem?_getD]
  by_cases h1 : i = j
  · subst h1
    by_cases h2 : i < l.length
    · simp [h2]
    · simp [h2]
      rw [List.getElem?_eq_none (by omega)]
      rfl
  · simp [h1]

/-- C3 evaluation: `submitReport` in CityGuard.sol contains no `require`
on `title` or `encryptedData`; submitting an empty title (or empty data)
succeeds, increments the count and persists the report — contradicting
the repository's own test suite, which expects the reverts
"Title cannot be empty" / "Encrypted data cannot be empty". -/
theorem submitReport_accepts_empty_input :
    (getReportCount (submitReport deployedState 1 "" [1, 2] 7 100).1 = 1 ∧
     getReportMeta (submitReport deployedState 1 "" [1, 2] 7 100).1 0 =
       some (1, "", 100, ReportStatus.Pending)) ∧
    (getReportCount (submitReport deployedState 1 "Title" [] 7 100).1 = 1 ∧
     getReportData (submitReport deployedState 1 "Title" [] 7 100).1 0 = some []) := by
  exact ⟨⟨rfl, rfl⟩, ⟨rfl, rfl⟩⟩

/-- C4: `updateReportStatus(id, newStatus)` reverts "Report does not
exist" (NotFound) when `id` is out of range and "Only reporter can update
status" (PermissionDenied) when the caller is not the report's reporter,
leaving storage unchanged in both cases; otherwise it unconditionally
sets `status = newStatus` — for any `newStatus` and any current status,
including reverting to an earlier state. -/
theorem updateReportStatus_spec (s : CityGuardState) (id : Nat)
    (newStatus : ReportStatus) (caller : Nat) :
    (s.reports.length ≤ id →
      updateReportStatus s id newStatus caller = Except.error "Report does not exist" ∧
      execTx s (Tx.update caller id newStatus) = s) ∧
    (id < s.reports.length → (s.reports.getD id defaultReport).reporter ≠ caller →
      updateReportStatus s id newStatus caller =
        Except.error "Only reporter can update status" ∧
      execTx s (Tx.update caller id newStatus) = s) ∧
    (id < s.reports.length → (s.reports.getD id defaultReport).reporter = caller →
      updateReportStatus s id newStatus caller = Except.ok (setStatus s id newStatus)) := by
  refine ⟨?_, ?_, ?_⟩
  · intro h
    have hnot : ¬ id < s.reports.length := by omega
    constructor
    · unfold updateReportStatus
      rw [if_neg hnot]
    · show (match updateReportStatus s id newStatus caller with
        | Except.ok s2 => s2
        | Except.error _ => s) = s
      unfold updateReportStatus
      rw [if_neg hnot]
  · intro h hrep
    constructor
    · unfold updateReportStatus
      rw [if_pos h, if_neg hrep]
    · show (match updateReportStatus s id newStatus caller with
        | Except.ok s2 => s2
        | Except.error _ => s) = s
      unfold updateReportStatus
      rw [if_pos h, if_neg hrep]
  · intro h hrep
    unfold updateReportStatus
    rw [if_pos h, if_pos hrep]
    rfl

/-- C4 witness: on a one-report state submitted by principal 1, id 5 is
NotFound; principal 2 updating report 0 is rejected with the permission
message and the state (hence report 0's Pending status) is unchanged;
principal 1 may set any status. -/
theorem updateReportStatus_spec_witness :
    (let s1 := (submitReport deployedState 1 "t" [1, 2] 7 100).1
     (s1.reports.length ≤ 5 ∧
        updateReportStatus s1 5 ReportStatus.Reviewed 1 =
          Except.error "Report does not exist") ∧
     (0 < s1.reports.length ∧ (s1.reports.getD 0 defaultReport).reporter ≠ 2 ∧
        updateReportStatus s1 0 ReportStatus.Reviewed 2 =
          Except.error "Only reporter can update status" ∧
        execTx s1 (Tx.update 2 0 ReportStatus.Reviewed) = s1) ∧
     (0 < s1.reports.length ∧ (s1.reports.getD 0 defaultReport).reporter = 1 ∧
        updateReportStatus s1 0 ReportStatus.Resolved 1 =
          Except.ok (setStatus s1 0 ReportStatus.Resolved))) := by
  refine ⟨⟨by decide, ?_⟩, ⟨by decide, by decide, ?_, ?_⟩, ⟨by decide, by decide, ?_⟩⟩
  · exact ((updateReportStatus_spec _ 5 ReportStatus.Reviewed 1).1 (by decide)).1
  · exact ((updateReportStatus_spec _ 0 ReportStatus.Reviewed 2).2.1 (by decide) (by decide)).1
  · exact ((updateReportStatus_spec _ 0 ReportStatus.Reviewed 2).2.1 (by decide) (by decide)).2
  · exact (updateReportStatus_spec _ 0 ReportStatus.Resolved 1).2.2 (by decide) (by decide)

/-- C9: each getter returns `none` (reverts, NotFound) exactly when `id`
is outside `[0, count)`, and inside the range returns the stored fields
of report `id`. -/
theorem getters_spec (s : CityGuardState) (id : Nat) :
    (s.reports.length ≤ id →
      getReportMeta s id = none ∧ getReportData s id = none ∧
      getEncryptedKey s id = none) ∧
    (id < s.reports.length → ∃ r, s.reports.get? id = some r) ∧
    (∀ r, s.reports.get? id = some r →
      getReportMeta s id = some (r.reporter, r.title, r.createdAt, r.status) ∧
      getReportData s id = some r.encryptedData ∧
      getEncryptedKey s id = some r.encryptedKey) := by
  refine ⟨?_, ?_, ?_⟩
  · intro h
    have hn : s.reports.get? id = none := by
      rw [List.get?_eq_getElem?, List.getElem?_eq_none h]
    refine ⟨?_, ?_, ?_⟩ <;>
      simp only [getReportMeta, getReportData, getEncryptedKey, hn, Option.map_none']
  · intro h
    exact ⟨s.reports.get ⟨id, h⟩, List.get?_eq_get h⟩
  · intro r h
    refine ⟨?_, ?_, ?_⟩ <;>
      simp only [getReportMeta, getReportData, getEncryptedKey, h, Option.map_some']

/-- C9 witness: on a one-report state, id 5 yields `none` from all three
getters and id 0 yields the stored fields. -/
theorem getters_spec_witness :
    (let s1 := (submitReport deployedState 1 "t" [1, 2] 7 100).1
     (s1.reports.length ≤ 5 ∧ getReportMeta s1 5 = none ∧
        getReportData s1 5 = none ∧ getEncryptedKey s1 5 = none) ∧
     (s1.reports.get? 0 = some (mkReport 1 "t" [1, 2] 7 100) ∧
      getReportMeta s1 0 = some (1, "t", 100, ReportStatus.Pending) ∧
      getReportData s1 0 = some [1, 2] ∧ getEncryptedKey s1 0 = some 7)) := by
  refine ⟨⟨by decide, ?_⟩, ⟨by decide, ?_⟩⟩
  · exact (getters_spec _ 5).1 (by decide)
  · have h := (getters_spec (submitReport deployedState 1 "t" [1, 2] 7 100).1 0).2.2
      (mkReport 1 "t" [1, 2] 7 100) (by decide)
    exact ⟨h.1, h.2.1, h.2.2⟩

/-! ### Reporter-index invariant -/

/-- I1/I2: the reporter index is, for every principal, exactly the filter
of the report positions by reporter. -/
def IndexInv (s : CityGuardState) : Prop :=
  ∀ p, s.reportsByReporter p = specReporterIds s p

theorem IndexInv_deployed : IndexInv deployedState := fun _ => rfl

theorem IndexInv_submit (s : CityGuardState) (h : IndexInv s) (caller : Nat)
    (title : String) (d : List Nat) (k ts : Nat) :
    IndexInv (submitReport s caller title d k ts).1 := by
  intro p
  rw [submitReport_index, h p]
  unfold specReporterIds
  rw [submitReport_reports, List.length_append]
  show _ = (List.range (s.reports.length + 1)).filter _
  rw [List.range_succ, List.filter_append]
  have hfilter : (List.range s.reports.length).filter
      (fun i => decide (((s.reports ++ [mkReport caller title d k ts]).getD i
        defaultReport).reporter = p)) =
      specReporterIds s p := by
    unfold specReporterIds
    apply List.filter_congr
    intro i hi
    rw [List.getD_append _ _ _ _ (List.mem_range.mp hi)]
  have hlast : ((s.reports ++ [mkReport caller title d k ts]).getD
      s.reports.length defaultReport).reporter = caller := by
    rw [List.getD_append_right _ _ _ _ (le_refl _), Nat.sub_self]
    rfl
  by_cases hp : p = caller
  · subst hp
    rw [if_pos rfl, hfilter]
    have : (List.filter (fun i => decide (((s.reports ++ [mkReport p title d k ts]).getD i
        defaultReport).reporter = p)) [s.reports.length]) = [s.reports.length] := by
      rw [List.filter_singleton, hlast]
      simp
    rw [this]
    rfl
  · rw [if_neg hp, hfilter]
    have : (List.filter (fun i => decide (((s.reports ++ [mkReport caller title d k ts]).getD i
        defaultReport).reporter = p)) [s.reports.length]) = [] := by
      have hcp : caller ≠ p := fun hc => hp hc.symm
      rw [List.filter_singleton, hlast]
      simp [hcp]
    rw [this, List.append_nil]
    rfl

theorem execTx_update_cases (s : CityGuardState) (caller id : Nat) (st : ReportStatus) :
    execTx s (Tx.update caller id st) = s ∨
    (id < s.reports.length ∧ (s.reports.getD id defaultReport).reporter = caller ∧
      execTx s (Tx.update caller id st) = setStatus s id st) := by
  show (match updateReportStatus s id st caller with
    | Except.ok s2 => s2
    | Except.error _ => s) = s ∨ _
  unfold updateReportStatus
  by_cases h1 : id < s.reports.length
  · by_cases h2 : (s.reports.getD id defaultReport).reporter = caller
    · right
      refine ⟨h1, h2, ?_⟩
      show (match updateReportStatus s id st caller with
        | Except.ok s2 => s2
        | Except.error _ => s) = setStatus s id st
      unfold updateReportStatus
      rw [if_pos h1, if_pos h2]
      rfl
    · left
      rw [if_pos h1, if_neg h2]
  · left
    rw [if_neg h1]

theorem specReporterIds_setStatus (s : CityGuardState) (id : Nat) (st : ReportStatus)
    (p : Nat) : specReporterIds (setStatus s id st) p = specReporterIds s p := by
  unfold specReporterIds setStatus
  simp only [List.length_set]
  apply List.filter_congr
  intro i hi
  rw [getD_set_report]
  by_cases h : id = i ∧ id < s.reports.length
  · rw [if_pos h, h.1]
  · rw [if_neg h]

theorem IndexInv_execTx (s : CityGuardState) (h : IndexInv s) (a : Tx) :
    IndexInv (execTx s a) := by
  cases a with
  | submit caller title d k ts => exact IndexInv_submit s h caller title d k ts
  | update caller id st =>
    rcases execTx_update_cases s caller id st with heq | ⟨_, _, heq⟩
    · rw [heq]; exact h
    · rw [heq]
      intro p
      rw [specReporterIds_setStatus]
      exact h p

theorem IndexInv_foldl : ∀ (acts : List Tx) (s : CityGuardState), IndexInv s →
    IndexInv (acts.foldl execTx s) := by
  intro acts
  induction acts with
  | nil => intro s h; exact h
  | cons a l ih => intro s h; exact ih (execTx s a) (IndexInv_execTx s h a)

theorem execTx_submit_count (s : CityGuardState) (caller : Nat) (title : String)
    (d : List Nat) (k ts : Nat) :
    ((execTx s (Tx.submit caller title d k ts)).reports).length = s.reports.length + 1 := by
  show ((submitReport s caller title d k ts).1).reports.length = _
  rw [submitReport_reports, List.length_append]
  rfl

theorem execTx_update_count (s : CityGuardState) (caller id : Nat) (st : ReportStatus) :
    ((execTx s (Tx.update caller id st)).reports).length = s.reports.length := by
  rcases execTx_update_cases s caller id st with heq | ⟨_, _, heq⟩
  · rw [heq]
  · rw [heq]
    show (s.reports.set id _).length = _
    rw [List.length_set]

theorem foldl_count : ∀ (acts : List Tx) (s : CityGuardState),
    ((acts.foldl execTx s).reports).length = s.reports.length + numSubmits acts := by
  intro acts
  induction acts with
  | nil => intro s; simp [numSubmits]
  | cons a l ih =>
    intro s
    show ((l.foldl execTx (execTx s a)).reports).length = _
    rw [ih]
    unfold numSubmits
    cases a with
    | submit caller title d k ts =>
      rw [execTx_submit_count, List.filter_cons_of_pos (by rfl)]
      simp only [List.length_cons]
      omega
    | update caller id st =>
      rw [execTx_update_count, List.filter_cons_of_neg (by simp)]

/-- C5: after any transaction trace, the report count equals the number
of submissions (ids are the dense positions `0..N-1` of the append-only
array), and for every principal `p` the reporter index lists — in
strictly increasing submission order — exactly the ids whose report has
`reporter = p`, with the per-reporter count equal to that list's
length. -/
theorem ledger_trace_spec (acts : List Tx) :
    getReportCount (execTrace acts) = numSubmits acts ∧
    (∀ p, getReportIdsByReporter (execTrace acts) p = specReporterIds (execTrace acts) p) ∧
    (∀ p, getReportCountByReporter (execTrace acts) p =
      (specReporterIds (execTrace acts) p).length) ∧
    (∀ p i, i ∈ getReportIdsByReporter (execTrace acts) p ↔
      (i < getReportCount (execTrace acts) ∧
        ((execTrace acts).reports.getD i defaultReport).reporter = p)) ∧
    (∀ p, List.Pairwise (fun a b => a < b) (getReportIdsByReporter (execTrace acts) p)) := by
  have hinv : IndexInv (execTrace acts) := IndexInv_foldl acts deployedState IndexInv_deployed
  have hcount : getReportCount (execTrace acts) = numSubmits acts := by
    show ((acts.foldl execTx deployedState).reports).length = _
    rw [foldl_count]
    show 0 + numSubmits acts = numSubmits acts
    rw [Nat.zero_add]
  refine ⟨hcount, hinv, fun p => congrArg List.length (hinv p), ?_, ?_⟩
  · intro p i
    rw [show getReportIdsByReporter (execTrace acts) p =
      (execTrace acts).reportsByReporter p from rfl, hinv p]
    unfold specReporterIds
    rw [List.mem_filter, List.mem_range]
    show _ ↔ (i < (execTrace acts).reports.length ∧ _)
    simp only [decide_eq_true_eq]
  · intro p
    rw [show getReportIdsByReporter (execTrace acts) p =
      (execTrace acts).reportsByReporter p from rfl, hinv p]
    exact List.Pairwise.sublist (List.filter_sublist _)
      (List.pairwise_lt_range _)

/-- C6: stored reports are immutable except `status`.  `submitReport`
leaves every previously stored report and every other principal's index
unchanged; a successful `updateReportStatus` changes only the `status`
field of the targeted report, leaves every other report unchanged, and
leaves the whole reporter index unchanged. -/
theorem report_immutability (s : CityGuardState) :
    (∀ caller title d k ts,
      (∀ i, i < s.reports.length →
        ((submitReport s caller title d k ts).1).reports.get? i = s.reports.get? i) ∧
      (∀ p, p ≠ caller →
        ((submitReport s caller title d k ts).1).reportsByReporter p =
          s.reportsByReporter p)) ∧
    (∀ id newStatus caller s2,
      updateReportStatus s id newStatus caller = Except.ok s2 →
      s2.reportsByReporter = s.reportsByReporter ∧
      (∀ j, j ≠ id → s2.reports.get? j = s.reports.get? j) ∧
      (∀ r r2, s.reports.get? id = some r → s2.reports.get? id = some r2 →
        r2.reporter = r.reporter ∧ r2.title = r.title ∧
        r2.encryptedData = r.encryptedData ∧ r2.encryptedKey = r.encryptedKey ∧
        r2.createdAt = r.createdAt ∧ r2.status = newStatus)) := by
  constructor
  · intro caller title d k ts
    constructor
    · intro i hi
      rw [submitReport_reports, List.get?_eq_getElem?, List.get?_eq_getElem?,
        List.getElem?_append, if_pos hi]
    · intro p hp
      rw [submitReport_index, if_neg hp]
  · intro id newStatus caller s2 hok
    have hlt : id < s.reports.length := by
      by_contra hge
      unfold updateReportStatus at hok
      rw [if_neg hge] at hok
      cases hok
    have hrep : (s.reports.getD id defaultReport).reporter = caller := by
      by_contra hne
      unfold updateReportStatus at hok
      rw [if_pos hlt, if_neg hne] at hok
      cases hok
    have hs2 : s2 = setStatus s id newStatus := by
      unfold updateReportStatus at hok
      rw [if_pos hlt, if_pos hrep] at hok
      cases hok
      rfl
    subst hs2
    refine ⟨rfl, ?_, ?_⟩
    · intro j hj
      show (s.reports.set id _).get? j = _
      rw [List.get?_eq_getElem?, List.get?_eq_getElem?, List.getElem?_set,
        if_neg (fun he => hj he.symm)]
    · intro r r2 hr hr2
      have hgd : s.reports.getD id defaultReport = r := by
        rw [List.getD_eq_getElem?_getD, ← List.get?_eq_getElem?, hr]
        rfl
      have : (setStatus s id newStatus).reports.get? id =
          some { r with status := newStatus } := by
        show (s.reports.set id _).get? id = _
        rw [List.get?_eq_getElem?, List.getElem?_set, if_pos rfl, if_pos hlt, hgd]
      rw [this] at hr2
      cases hr2
      exact ⟨rfl, rfl, rfl, rfl, rfl, rfl⟩

/-- C6 witness: with two reports stored (one by principal 1, one by
principal 2), a fresh submission by principal 2 leaves report 0 and
principal 1's index unchanged, and principal 1 resolving report 0 keeps
every field but `status` of report 0, keeps report 1, and keeps the
index. -/
theorem report_immutability_witness :
    (let s2 := (submitReport (submitReport deployedState 1 "a" [1] 7 100).1
        2 "b" [2] 8 200).1
     (0 < s2.reports.length ∧
        ((submitReport s2 2 "c" [3] 9 300).1).reports.get? 0 = s2.reports.get? 0) ∧
     ((1 : Nat) ≠ 2 ∧
        ((submitReport s2 2 "c" [3] 9 300).1).reportsByReporter 1 =
          s2.reportsByReporter 1) ∧
     (updateReportStatus s2 0 ReportStatus.Resolved 1 =
        Except.ok (setStatus s2 0 ReportStatus.Resolved) ∧
      (setStatus s2 0 ReportStatus.Resolved).reportsByReporter = s2.reportsByReporter ∧
      (setStatus s2 0 ReportStatus.Resolved).reports.get? 1 = s2.reports.get? 1 ∧
      (s2.reports.get? 0 = some (mkReport 1 "a" [1] 7 100) ∧
       (setStatus s2 0 ReportStatus.Resolved).reports.get? 0 =
         some { mkReport 1 "a" [1] 7 100 with status := ReportStatus.Resolved }))) := by
  intro s2
  have hup : updateReportStatus s2 0 ReportStatus.Resolved 1 =
      Except.ok (setStatus s2 0 ReportStatus.Resolved) := by rfl
  have h2 := (report_immutability s2).2 0 ReportStatus.Resolved 1
    (setStatus s2 0 ReportStatus.Resolved) hup
  refine ⟨⟨by decide, ?_⟩, ⟨by decide, ?_⟩, hup, h2.1, h2.2.1 1 (by decide), by decide, ?_⟩
  · exact ((report_immutability s2).1 2 "c" [3] 9 300).1 0 (by decide)
  · exact ((report_immutability s2).1 2 "c" [3] 9 300).2 1 (by decide)
  · have := h2.2.2 (mkReport 1 "a" [1] 7 100)
      { mkReport 1 "a" [1] 7 100 with status := ReportStatus.Resolved }
      (by decide) (by decide)
    decide

/-! ## Byte/hex helpers (bytesToHex / hexToBytes, ReportSubmit.tsx) -/

/-- Value of one hex digit character, as `parseInt(_, 16)` reads it
(digits, lowercase and uppercase letters). -/
def hexDigitVal (c : Char) : Nat :=
  if 48 ≤ c.toNat ∧ c.toNat ≤ 57 then c.toNat - 48
  else if 97 ≤ c.toNat ∧ c.toNat ≤ 102 then c.toNat - 87
  else if 65 ≤ c.toNat ∧ c.toNat ≤ 70 then c.toNat - 55
  else 0

/-- `parseInt(s, 16)` on a two-hex-digit string. -/
def parseHexPair (c1 c2 : Char) : Nat :=
  hexDigitVal c1 * 16 + hexDigitVal c2

/-- `b.toString(16)`: lowercase base-16 digits of a `Nat`. -/
def toString16 (n : Nat) : List Char :=
  Nat.toDigits 16 n

/-- `.padStart(2, "0")`. -/
def padStart2 (l : List Char) : List Char :=
  List.replicate (2 - l.length) '0' ++ l

/-- One byte rendered as exactly two lowercase hex digits:
`b.toString(16).padStart(2, "0")` from `bytesToHex`. -/
def byteHex2 (b : Nat) : List Char :=
  padStart2 (toString16 b)

def byteHexOk (b : Nat) : Bool :=
  match byteHex2 b with
  | [c1, c2] => parseHexPair c1 c2 == b
  | _ => false

theorem byteHexOk_lt_256 : ∀ b, b < 256 → byteHexOk b = true := by decide

example : byteHex2 171 = ['a', 'b'] := by decide
example : byteHex2 0 = ['0', '0'] := by decide
example : byteHex2 15 = ['0', 'f'] := by decide

/-- `bytesToHex(bytes)` from ReportSubmit.tsx: `"0x"` followed by each
byte as two lowercase hex digits. -/
def bytesToHex (bytes : List Nat) : String :=
  String.mk ('0' :: 'x' :: (bytes.map byteHex2).flatten)

/-- The byte loop of `hexToBytes`: `length / 2` bytes, byte `i` parsed
from the two characters at positions `2i, 2i+1` (a trailing odd
character is dropped, as `new Uint8Array(cleanHex.length / 2)` floors). -/
def hexPairsToBytes : List Char → List Nat
  | c1 :: c2 :: rest => parseHexPair c1 c2 :: hexPairsToBytes rest
  | _ => []

/-- `hexToBytes(hex)` from ReportSubmit.tsx: strip a leading `"0x"` if
present, then parse consecutive hex-digit pairs. -/
def hexToBytes (hex : String) : List Nat :=
  hexPairsToBytes
    (match hex.data with
      | '0' :: 'x' :: rest => rest
      | l => l)

theorem byteHex2_shape (b : Nat) (hb : b < 256) :
    ∃ c1 c2, byteHex2 b = [c1, c2] ∧ parseHexPair c1 c2 = b := by
  have h := byteHexOk_lt_256 b hb
  unfold byteHexOk at h
  match hE : byteHex2 b with
  | [] => rw [hE] at h; cases h
  | [c1] => rw [hE] at h; cases h
  | c1 :: c2 :: c3 :: rest => rw [hE] at h; cases h
  | [c1, c2] =>
    rw [hE] at h
    simp only [beq_iff_eq] at h
    exact ⟨c1, c2, rfl, h⟩

theorem hexPairsToBytes_flatten (l : List Nat) (h : ∀ x ∈ l, x < 256) :
    hexPairsToBytes ((l.map byteHex2).flatten) = l := by
  induction l with
  | nil => rfl
  | cons a t ih =>
    obtain ⟨c1, c2, hE, hP⟩ := byteHex2_shape a (h a (List.mem_cons_self a t))
    show hexPairsToBytes (byteHex2 a ++ (t.map byteHex2).flatten) = a :: t
    rw [hE]
    show parseHexPair c1 c2 :: hexPairsToBytes ((t.map byteHex2).flatten) = a :: t
    rw [hP, ih (fun x hx => h x (List.mem_cons_of_mem a hx))]

/-- C10: the `"0x"`-prefixed two-lowercase-hex-digits-per-byte encoding
produced by `bytesToHex` decodes back under `hexToBytes` to the identical
byte array. -/
theorem hexToBytes_bytesToHex (b : List Nat) (hb : ∀ x ∈ b, x < 256) :
    hexToBytes (bytesToHex b) = b := by
  show hexPairsToBytes
      (match ('0' :: 'x' :: (b.map byteHex2).flatten : List Char) with
        | '0' :: 'x' :: rest => rest
        | l => l) = b
  exact hexPairsToBytes_flatten b hb

/-- C10 witness: a concrete blob round-trips through the hex wire
encoding. -/
theorem hexToBytes_bytesToHex_witness :
    (∀ x ∈ [0, 1, 15, 16, 255, 171, 18], x < 256) ∧
    hexToBytes (bytesToHex [0, 1, 15, 16, 255, 171, 18]) = [0, 1, 15, 16, 255, 171, 18] :=
  ⟨by decide, hexToBytes_bytesToHex [0, 1, 15, 16, 255, 171, 18] (by decide)⟩

example : bytesToHex [0, 255, 171] = "0x00ffab" := by decide
example : hexToBytes "0x00ffab" = [0, 255, 171] := by decide
example : hexToBytes "00ffab" = [0, 255, 171] := by decide

/-! ## Key derivation (deriveKeyFromPasswordAddress, ReportSubmit.tsx and
ReportList.tsx — the two copies are identical) -/

theorem toNat_ofNat_small (n : Nat) (h : n < 0xd800) : (Char.ofNat n).toNat = n := by
  unfold Char.ofNat
  rw [dif_pos (Or.inl h)]
  rfl

/-- `Char` part of `String.prototype.toLowerCase()` on the ASCII range:
uppercase letters gain 32, everything else is untouched.  The inputs of
`deriveKeyFromPasswordAddress` are address-shaped (`"0x" + hex digits`),
hence ASCII, where this matches the JavaScript behaviour. -/
def jsLowerChar (c : Char) : Char :=
  if 65 ≤ c.toNat ∧ c.toNat ≤ 90 then Char.ofNat (c.toNat + 32) else c

/-- `passwordAddress.toLowerCase()` (ASCII fragment, see `jsLowerChar`). -/
def jsToLowerCase (s : String) : String :=
  String.mk (s.data.map jsLowerChar)

/-- ethers `toUtf8Bytes` on ASCII strings: one byte per character, the
code point.  (The address-shaped inputs here are pure ASCII.) -/
def toUtf8Bytes (s : String) : List Nat :=
  s.data.map Char.toNat

/-- `parseInt(s, 16)` on the (up to two-character) slice taken by the key
loop; on the real 64-hex-digit keccak output the slice always has
exactly two characters. -/
def parseHexSlice (l : List Char) : Nat :=
  match l with
  | [c1, c2] => parseHexPair c1 c2
  | [c1] => hexDigitVal c1
  | _ => 0

/-- `deriveKeyFromPasswordAddress(passwordAddress)` from
ReportSubmit.tsx / ReportList.tsx:
`hash = keccak256(toUtf8Bytes(passwordAddress.toLowerCase()))` — ethers
returns the 32-byte digest as a `"0x"`-prefixed lowercase hex string,
modelled here as `bytesToHex` of the digest bytes, with the digest
function itself (an external cryptographic primitive) taken as the
parameter `keccak` — then `key[i] = parseInt(hash.slice(2 + i*2, 4 +
i*2), 16)` for `i < 32`. -/
def deriveKeyFromPasswordAddress (keccak : List Nat → List Nat)
    (passwordAddress : String) : List Nat :=
  let hash := bytesToHex (keccak (toUtf8Bytes (jsToLowerCase passwordAddress)))
  (List.range 32).map fun i => parseHexSlice ((hash.data.drop (2 + 2 * i)).take 2)

theorem jsLowerChar_idem (c : Char) : jsLowerChar (jsLowerChar c) = jsLowerChar c := by
  unfold jsLowerChar
  by_cases h : 65 ≤ c.toNat ∧ c.toNat ≤ 90
  · rw [if_pos h]
    have ht : (Char.ofNat (c.toNat + 32)).toNat = c.toNat + 32 :=
      toNat_ofNat_small _ (by omega)
    rw [if_neg (by rw [ht]; omega)]
  · rw [if_neg h, if_neg h]

theorem jsToLowerCase_idem (s : String) :
    jsToLowerCase (jsToLowerCase s) = jsToLowerCase s := by
  unfold jsToLowerCase
  show String.mk ((s.data.map jsLowerChar).map jsLowerChar) = _
  rw [List.map_map]
  exact congrArg String.mk (List.map_congr_left fun c _ => jsLowerChar_idem c)

theorem flatten_pair_at (l : List Nat) (hl : ∀ x ∈ l, x < 256) :
    ∀ i, i < l.length →
      (((l.map byteHex2).flatten.drop (2 * i)).take 2) = byteHex2 (l.getD i 0) := by
  induction l with
  | nil => intro i hi; cases hi
  | cons a t ih =>
    intro i hi
    obtain ⟨c1, c2, hE, _⟩ := byteHex2_shape a (hl a (List.mem_cons_self a t))
    show (((byteHex2 a ++ (t.map byteHex2).flatten).drop (2 * i)).take 2) = _
    cases i with
    | zero =>
      rw [List.getD_cons_zero, hE]
      rfl
    | succ j =>
      rw [List.getD_cons_succ, hE]
      have harith : 2 * (j + 1) = 2 + 2 * j := by ring
      rw [harith, ← List.drop_drop]
      show (((t.map byteHex2).flatten.drop (2 * j)).take 2) = _
      exact ih (fun x hx => hl x (List.mem_cons_of_mem a hx)) j
        (by simpa using Nat.lt_of_succ_lt_succ hi)

theorem map_getD_range (l : List Nat) :
    (List.range l.length).map (fun i => l.getD i 0) = l := by
  apply List.ext_get
  · simp
  · intro n h1 h2
    simp only [List.get_eq_getElem, List.getElem_map, List.getElem_range]
    rw [List.getD_eq_getElem l 0 h2]

/-- C7: `deriveKeyFromPasswordAddress` is invariant under hex-letter case
of the address (it lowercases before hashing), always yields a 32-byte
key, and the key equals (the first) 32 bytes of the keccak digest of the
UTF-8 text of the lowercased address.  `keccak` is the external digest,
assumed only to produce 32 bytes on the one relevant input;
determinism across repeated calls is inherent (the function is pure). -/
theorem deriveKey_spec (keccak : List Nat → List Nat) (addr : String)
    (hlen : (keccak (toUtf8Bytes (jsToLowerCase addr))).length = 32)
    (hlt : ∀ x ∈ keccak (toUtf8Bytes (jsToLowerCase addr)), x < 256) :
    deriveKeyFromPasswordAddress keccak addr =
      deriveKeyFromPasswordAddress keccak (jsToLowerCase addr) ∧
    (deriveKeyFromPasswordAddress keccak addr).length = 32 ∧
    deriveKeyFromPasswordAddress keccak addr =
      keccak (toUtf8Bytes (jsToLowerCase addr)) := by
  have hmain : ∀ t : String, toUtf8Bytes (jsToLowerCase t) =
        toUtf8Bytes (jsToLowerCase addr) →
      deriveKeyFromPasswordAddress keccak t =
        keccak (toUtf8Bytes (jsToLowerCase addr)) := by
    intro t ht
    unfold deriveKeyFromPasswordAddress
    rw [ht]
    set l := keccak (toUtf8Bytes (jsToLowerCase addr)) with hldef
    show (List.range 32).map (fun i => parseHexSlice
      (((bytesToHex l).data.drop (2 + 2 * i)).take 2)) = l
    have hdata : (bytesToHex l).data = '0' :: 'x' :: (l.map byteHex2).flatten := rfl
    have hstep : ∀ i, i < 32 → parseHexSlice
        (((bytesToHex l).data.drop (2 + 2 * i)).take 2) = l.getD i 0 := by
      intro i hi
      rw [hdata]
      have hdrop : List.drop (2 + 2 * i) ('0' :: 'x' :: (l.map byteHex2).flatten) =
          List.drop (2 * i) ((l.map byteHex2).flatten) := by
        rw [← List.drop_drop]
        rfl
      rw [hdrop, flatten_pair_at l hlt i (by omega)]
      have hmem : l.getD i 0 ∈ l := by
        rw [List.getD_eq_getElem l 0 (by omega)]
        apply List.getElem_mem
      obtain ⟨c1, c2, hE, hP⟩ := byteHex2_shape (l.getD i 0) (hlt _ hmem)
      rw [hE]
      exact hP
    calc (List.range 32).map (fun i => parseHexSlice
          (((bytesToHex l).data.drop (2 + 2 * i)).take 2))
        = (List.range 32).map (fun i => l.getD i 0) := by
          apply List.map_congr_left
          intro i hi
          exact hstep i (List.mem_range.mp hi)
      _ = l := by rw [← hlen]; exact map_getD_range l
  have h1 := hmain addr rfl
  have h2 := hmain (jsToLowerCase addr) (by rw [jsToLowerCase_idem])
  refine ⟨h1.trans h2.symm, ?_, h1⟩
  rw [h1, hlen]

/-- C7 witness: a constant 32-byte digest function and the mixed-case
address "0xAB" — the derived key agrees with the key of the lowercased
address and equals the digest bytes. -/
theorem deriveKey_spec_witness :
    ((fun _ => List.range 32) (toUtf8Bytes (jsToLowerCase "0xAB")) : List Nat).length = 32 ∧
    (∀ x ∈ ((fun _ => List.range 32) (toUtf8Bytes (jsToLowerCase "0xAB")) : List Nat), x < 256) ∧
    deriveKeyFromPasswordAddress (fun _ => List.range 32) "0xAB" =
      deriveKeyFromPasswordAddress (fun _ => List.range 32) (jsToLowerCase "0xAB") ∧
    deriveKeyFromPasswordAddress (fun _ => List.range 32) "0xAB" =
      (fun _ => List.range 32) (toUtf8Bytes (jsToLowerCase "0xAB")) :=
  ⟨by decide, by decide,
    (deriveKey_spec (fun _ => List.range 32) "0xAB" (by decide) (by decide)).1,
    (deriveKey_spec (fun _ => List.range 32) "0xAB" (by decide) (by decide)).2.2⟩
